import Mathlib

/-!
# Verification of `path_fan_speed.py`'s core transform `process_lines`

Shallow embedding of `process_lines` (src/path_fan_speed.py, lines 22-72):
a single-pass, stateful, line-by-line rewriter for G-code fan commands.
Lines are modelled as `List Char`; the rewriter state carries the two
optional fields of the Python function (`current_tool`, `last_fan_speed`),
both held as character strings exactly as the source does.

The Python regexes are translated into explicit scanners with the same
leftmost-match / greedy-with-backtracking semantics:

* `re.compile(r"^\s*M108\s+T(\d+)\b", re.IGNORECASE)` used with `.match`
  becomes `matchTool`.  After the greedy `\d+` takes the maximal digit
  run, `\b` holds iff the next character is not a word character (or the
  string ends); shrinking `\d+` in backtracking can never succeed because
  the following character would then be a digit, hence a word character.
* `re.search(r"(?i)\bS(-?\d+(?:\.\d+)?)\b", code)` becomes
  `findSParam none code`.  Same maximal-run argument for the integer
  digits; for the fractional part, if `\b` fails after the maximal
  fractional run the engine backtracks and drops the fractional group,
  and the boundary check then lands on the `.` (a non-word character),
  so it succeeds with the integer part alone.
* `re.sub(r"(?i)\s*T\d+\b", "", code)` becomes `removeToolTokens`:
  scan positions left to right, at each position try to match a
  (possibly empty) whitespace run, then `T`/`t`, then a nonempty maximal
  digit run followed by a word boundary; on a match drop the matched
  text and continue after it, otherwise keep the character and move on.
  (Note the pattern has no boundary requirement *before* the `T`.)

Python's character classes `\s`, `\w`, `\d`, `str.strip`/`upper` are
Unicode-aware; they are modelled here by their ASCII restrictions, which
agree with Python on every ASCII character (G-code is ASCII).
-/

/-- Python `\s` (ASCII fragment): the whitespace characters recognised by
`\s`, `str.lstrip()` and `str.rstrip()`. -/
def isPySpace (c : Char) : Bool :=
  c == ' ' || c == '\t' || c == '\n' || c == '\r' || c == '\x0b' || c == '\x0c'

/-- Python `\w` (ASCII fragment): letters, digits and underscore. -/
def isWordChar (c : Char) : Bool :=
  c.isAlphanum || c == '_'

/-- Boundary `\b` placed after a token: the remainder must be empty or start with a
non-word character. -/
def boundaryOk : List Char → Bool
  | [] => true
  | c :: _ => !(isWordChar c)

/-- The characters of a string literal (notation convenience for theorems). -/
def chars (s : String) : List Char := s.data

/-- Lines 31-39 of the source: split a raw line into its content and its
terminator; `\r\n` and `\n` are preserved, anything else (including a
missing terminator) yields the whole line with terminator `\n`. -/
def splitEol (l : List Char) : List Char × List Char :=
  if l.reverse.take 2 = ['\n', '\r'] then (l.dropLast.dropLast, ['\r', '\n'])
  else if l.reverse.take 1 = ['\n'] then (l.dropLast, ['\n'])
  else (l, ['\n'])

/-- Python `tool_re.match(stripped)` for `tool_re = ^\s*M108\s+T(\d+)\b` (line 23,
case-insensitive): `some ds` returns the captured digit group. -/
def matchTool (stripped : List Char) : Option (List Char) :=
  match stripped.dropWhile isPySpace with
  | m :: a :: b :: c :: rest =>
    if (m == 'M' || m == 'm') && a == '1' && b == '0' && c == '8'
        && !(rest.takeWhile isPySpace).isEmpty then
      match rest.dropWhile isPySpace with
      | t :: r =>
        if (t == 'T' || t == 't') && !(r.takeWhile Char.isDigit).isEmpty
            && boundaryOk (r.dropWhile Char.isDigit) then
          some (r.takeWhile Char.isDigit)
        else none
      | [] => none
    else none
  | _ => none

/-- Line 52 of the source: `stripped.lstrip().upper().startswith("M106")`. -/
def isFanLine (stripped : List Char) : Bool :=
  List.isPrefixOf ['M', '1', '0', '6'] ((stripped.dropWhile isPySpace).map Char.toUpper)

/-- The body `-?\d+(?:\.\d+)?\b` of the speed pattern, matched at a fixed
position (right after the `S`); returns the captured group text.  The
integer digit run is maximal (backtracking to a shorter run always fails
on the `\b`); the fractional part is kept only when its own maximal run
ends at a boundary, otherwise the engine drops it and the boundary check
succeeds on the `.` itself. -/
def sIntFrac (r : List Char) : Option (List Char) :=
  let ds := r.takeWhile Char.isDigit
  let rest := r.dropWhile Char.isDigit
  if ds.isEmpty then none
  else
    match rest with
    | '.' :: r2 =>
      let fs := r2.takeWhile Char.isDigit
      if !fs.isEmpty && boundaryOk (r2.dropWhile Char.isDigit) then
        some (ds ++ '.' :: fs)
      else some ds
    | _ => if boundaryOk rest then some ds else none

/-- Group text at one candidate position: optional sign, then `sIntFrac`. -/
def sMatchHere (t : List Char) : Option (List Char) :=
  match t with
  | '-' :: r => (sIntFrac r).map (fun g => '-' :: g)
  | r => sIntFrac r

/-- Boundary `\b` placed before a token: no previous character, or a non-word one. -/
def prevNonWord : Option Char → Bool
  | none => true
  | some c => !(isWordChar c)

/-- The search `re.search(r"(?i)\bS(-?\d+(?:\.\d+)?)\b", code)` (line 59): scan the
positions of `code` left to right carrying the previous character, and
return the first full match's group. -/
def findSParam : Option Char → List Char → Option (List Char)
  | _, [] => none
  | prev, c :: cs =>
    if (c == 'S' || c == 's') && prevNonWord prev then
      match sMatchHere cs with
      | some g => some g
      | none => findSParam (some c) cs
    else findSParam (some c) cs

/-- One attempt of `\s*T\d+\b` anchored at the current position: a
whitespace run (greedy; backtracking it can never help since the `T`
would then have to match a whitespace character), then `T`/`t`, then a
nonempty maximal digit run, then a word boundary.  `some rest` returns
what follows the matched text. -/
def matchToolTokenAfterWs : List Char → Option (List Char)
  | [] => none
  | c :: rest =>
    if (c == 'T' || c == 't') && !(rest.takeWhile Char.isDigit).isEmpty
        && boundaryOk (rest.dropWhile Char.isDigit) then
      some (rest.dropWhile Char.isDigit)
    else none

/-- See `matchToolTokenAfterWs`; the `\s*` prefix of the attempt. -/
def matchToolToken (s : List Char) : Option (List Char) :=
  matchToolTokenAfterWs (s.dropWhile isPySpace)

/-- Removal `re.sub(r"(?i)\s*T\d+\b", "", code)` (line 63), fuelled so that the
recursion is structural: at each position either drop a leftmost match
and continue after it, or keep the character.  Any fuel at least the
length of the list gives the same result (`removeF_fuel`). -/
def removeF : Nat → List Char → List Char
  | 0, s => s
  | _, [] => []
  | fuel + 1, c :: cs =>
    match matchToolToken (c :: cs) with
    | some rest => removeF fuel rest
    | none => c :: removeF fuel cs

/-- Removal `re.sub(r"(?i)\s*T\d+\b", "", code)` (line 63). -/
def removeToolTokens (s : List Char) : List Char := removeF s.length s

/-- Python `str.rstrip()` (line 64, ASCII fragment). -/
def rstrip (l : List Char) : List Char := (l.reverse.dropWhile isPySpace).reverse

/-- The two fields the loop of `process_lines` carries across lines:
`current_tool` (line 25) and `last_fan_speed` (line 27), both optional
character strings, both initially unset. -/
structure RewriterState where
  currentTool : Option (List Char)
  lastFanSpeed : Option (List Char)
deriving DecidableEq

/-- The body of the `for` loop of `process_lines` (lines 29-70): given the
state before a line, the state after it and the output lines it emits. -/
def processLine (st : RewriterState) (line : List Char) :
    RewriterState × List (List Char) :=
  let stripped := (splitEol line).1
  let eol := (splitEol line).2
  match matchTool stripped with
  | some tnum =>
    -- lines 43-49: tool marker; remember the tool, emit the line, and if a
    -- fan speed is known synthesize `M106 S{last_fan_speed} T{current_tool}`
    match st.lastFanSpeed with
    | some sp =>
      (⟨some tnum, some sp⟩,
        [stripped ++ eol, chars "M106 S" ++ sp ++ chars " T" ++ tnum ++ eol])
    | none => (⟨some tnum, none⟩, [stripped ++ eol])
  | none =>
    match st.currentTool with
    | some tool =>
      if isFanLine stripped then
        -- lines 53-67: split off the inline comment, look for an S value
        let code := stripped.takeWhile (fun c => c != ';')
        let commentSuffix := stripped.dropWhile (fun c => c != ';')
        match findSParam none code with
        | some sp =>
          let newCode := rstrip (removeToolTokens code) ++ ' ' :: 'T' :: tool
          let sep : List Char :=
            if !commentSuffix.isEmpty && newCode.getLast? != some ' ' then [' '] else []
          (⟨some tool, some sp⟩, [newCode ++ sep ++ commentSuffix ++ eol])
        | none => (st, [stripped ++ eol])
      else (st, [stripped ++ eol])
    | none => (st, [stripped ++ eol])

/-- The whole loop from a given state: final state and emitted lines. -/
def runFrom (st : RewriterState) : List (List Char) → RewriterState × List (List Char)
  | [] => (st, [])
  | l :: ls =>
    let r := processLine st l
    let rest := runFrom r.1 ls
    (rest.1, r.2 ++ rest.2)

/-- Python `process_lines(lines)` (lines 22-72). -/
def process_lines (ls : List (List Char)) : List (List Char) :=
  (runFrom ⟨none, none⟩ ls).2


/-! ## Basic facts about the tool-token matcher and `removeF` -/

theorem matchToolTokenAfterWs_length {s rest : List Char}
    (h : matchToolTokenAfterWs s = some rest) : rest.length < s.length := by
  cases s with
  | nil => simp [matchToolTokenAfterWs] at h
  | cons c r =>
    simp only [matchToolTokenAfterWs] at h
    split at h
    · injection h with h
      subst h
      exact Nat.lt_succ_of_le (List.dropWhile_sublist _).length_le
    · cases h

theorem matchToolToken_length {s rest : List Char}
    (h : matchToolToken s = some rest) : rest.length < s.length :=
  lt_of_lt_of_le (matchToolTokenAfterWs_length h) (List.dropWhile_sublist _).length_le

theorem matchToolTokenAfterWs_suffix {s rest : List Char}
    (h : matchToolTokenAfterWs s = some rest) : ∃ pre, s = pre ++ rest := by
  cases s with
  | nil => simp [matchToolTokenAfterWs] at h
  | cons c r =>
    simp only [matchToolTokenAfterWs] at h
    split at h
    · injection h with h
      subst h
      exact ⟨c :: r.takeWhile Char.isDigit, by simp [List.takeWhile_append_dropWhile]⟩
    · cases h

theorem matchToolToken_suffix {s rest : List Char}
    (h : matchToolToken s = some rest) : ∃ pre, s = pre ++ rest := by
  obtain ⟨p, hp⟩ := matchToolTokenAfterWs_suffix h
  exact ⟨s.takeWhile isPySpace ++ p, by
    rw [List.append_assoc, ← hp, List.takeWhile_append_dropWhile]⟩

theorem matchToolToken_cons_space {c : Char} {cs : List Char} (h : isPySpace c = true) :
    matchToolToken (c :: cs) = matchToolToken cs := by
  simp [matchToolToken, List.dropWhile_cons, h]

theorem removeF_nil (f : Nat) : removeF f [] = [] := by
  cases f <;> simp [removeF]

theorem removeF_succ_some {g : Nat} {c : Char} {cs rest : List Char}
    (h : matchToolToken (c :: cs) = some rest) :
    removeF (g + 1) (c :: cs) = removeF g rest := by
  simp [removeF, h]

theorem removeF_succ_none {g : Nat} {c : Char} {cs : List Char}
    (h : matchToolToken (c :: cs) = none) :
    removeF (g + 1) (c :: cs) = c :: removeF g cs := by
  simp [removeF, h]

theorem removeF_fuel : ∀ (f₁ f₂ : Nat) (s : List Char), s.length ≤ f₁ → s.length ≤ f₂ →
    removeF f₁ s = removeF f₂ s := by
  intro f₁
  induction f₁ with
  | zero =>
    intro f₂ s h1 _
    have : s = [] := List.eq_nil_of_length_eq_zero (Nat.le_zero.mp h1)
    subst this
    simp [removeF, removeF_nil]
  | succ g ih =>
    intro f₂ s h1 h2
    cases s with
    | nil => simp [removeF_nil]
    | cons c cs =>
      have hf₂ : 1 ≤ f₂ := le_trans (by simp) h2
      obtain ⟨g₂, rfl⟩ : ∃ g₂, f₂ = g₂ + 1 := ⟨f₂ - 1, by omega⟩
      simp only [List.length_cons] at h1 h2
      cases hm : matchToolToken (c :: cs) with
      | some rest =>
        have hlt : rest.length < cs.length + 1 := by
          simpa using matchToolToken_length hm
        rw [removeF_succ_some hm, removeF_succ_some hm]
        exact ih g₂ rest (by omega) (by omega)
      | none =>
        rw [removeF_succ_none hm, removeF_succ_none hm, ih g₂ cs (by omega) (by omega)]

theorem removeToolTokens_cons_some {c : Char} {cs rest : List Char}
    (h : matchToolToken (c :: cs) = some rest) :
    removeToolTokens (c :: cs) = removeToolTokens rest := by
  have hlt : rest.length < cs.length + 1 := by simpa using matchToolToken_length h
  simp only [removeToolTokens, List.length_cons]
  rw [removeF_succ_some h]
  exact removeF_fuel cs.length rest.length rest (by omega) le_rfl

theorem removeToolTokens_cons_none {c : Char} {cs : List Char}
    (h : matchToolToken (c :: cs) = none) :
    removeToolTokens (c :: cs) = c :: removeToolTokens cs := by
  simp only [removeToolTokens, List.length_cons]
  rw [removeF_succ_none h]

/-! ## Double spaces -/

/-- Whether a string contains two adjacent space characters. -/
def hasDoubleSpace : List Char → Bool
  | c₁ :: c₂ :: r => (c₁ == ' ' && c₂ == ' ') || hasDoubleSpace (c₂ :: r)
  | _ => false

theorem hasDS_tail {c : Char} {l : List Char}
    (h : hasDoubleSpace (c :: l) = false) : hasDoubleSpace l = false := by
  cases l with
  | nil => simp [hasDoubleSpace]
  | cons d r =>
    simp only [hasDoubleSpace, Bool.or_eq_false_iff] at h
    exact h.2

theorem hasDS_cons_pair {c d : Char} {r : List Char}
    (h : hasDoubleSpace (c :: d :: r) = false) : ¬(c = ' ' ∧ d = ' ') := by
  simp only [hasDoubleSpace, Bool.or_eq_false_iff, Bool.and_eq_false_iff] at h
  rintro ⟨rfl, rfl⟩
  rcases h.1 with h' | h' <;> simp at h'

theorem hasDS_cons_ne_space {c : Char} {l : List Char} (hc : ¬c = ' ')
    (h : hasDoubleSpace l = false) : hasDoubleSpace (c :: l) = false := by
  cases l with
  | nil => simp [hasDoubleSpace]
  | cons d r => simp [hasDoubleSpace, hc, h]

theorem hasDS_cons_head {l : List Char} (hh : l.head? ≠ some ' ')
    (h : hasDoubleSpace l = false) : hasDoubleSpace (' ' :: l) = false := by
  cases l with
  | nil => simp [hasDoubleSpace]
  | cons d r =>
    have hd : ¬d = ' ' := by
      intro hd
      exact hh (by simp [hd])
    simp [hasDoubleSpace, hd, h]

theorem hasDS_append_right {a b : List Char}
    (h : hasDoubleSpace (a ++ b) = false) : hasDoubleSpace b = false := by
  induction a with
  | nil => simpa using h
  | cons c a ih => exact ih (hasDS_tail h)

theorem hasDS_append_left {a b : List Char}
    (h : hasDoubleSpace (a ++ b) = false) : hasDoubleSpace a = false := by
  induction a with
  | nil => simp [hasDoubleSpace]
  | cons c a ih =>
    cases a with
    | nil => simp [hasDoubleSpace]
    | cons d r =>
      simp only [List.cons_append, hasDoubleSpace, Bool.or_eq_false_iff] at h ⊢
      exact ⟨h.1, by
        have := ih (by simpa [List.cons_append, hasDoubleSpace] using h.2)
        simpa [hasDoubleSpace] using this⟩

theorem hasDS_append {a b : List Char} (ha : hasDoubleSpace a = false)
    (hb : hasDoubleSpace b = false)
    (hj : a.getLast? = some ' ' → b.head? ≠ some ' ') :
    hasDoubleSpace (a ++ b) = false := by
  induction a with
  | nil => simpa
  | cons c a ih =>
    cases a with
    | nil =>
      simp only [List.cons_append, List.nil_append]
      by_cases hc : c = ' '
      · subst hc
        exact hasDS_cons_head (hj (by simp)) hb
      · exact hasDS_cons_ne_space hc hb
    | cons d r =>
      have ih' := ih (hasDS_tail ha) (fun hl => hj (by simpa using hl))
      simp only [List.cons_append] at ih' ⊢
      by_cases hc : c = ' '
      · subst hc
        have hd : ¬ d = ' ' := fun hd => hasDS_cons_pair ha ⟨rfl, hd⟩
        exact hasDS_cons_head (by simp [hd]) ih'
      · exact hasDS_cons_ne_space hc ih'

theorem hasDS_removeF : ∀ (f : Nat) (s : List Char), s.length ≤ f →
    hasDoubleSpace s = false → hasDoubleSpace (removeF f s) = false := by
  intro f
  induction f with
  | zero =>
    intro s _ h2
    simpa [removeF] using h2
  | succ g ih =>
    intro s h1 h2
    cases s with
    | nil => simp [removeF_nil, hasDoubleSpace]
    | cons c cs =>
      simp only [List.length_cons] at h1
      cases hm : matchToolToken (c :: cs) with
      | some rest =>
        rw [removeF_succ_some hm]
        have hlt : rest.length < cs.length + 1 := by simpa using matchToolToken_length hm
        obtain ⟨pre, hpre⟩ := matchToolToken_suffix hm
        exact ih rest (by omega) (hasDS_append_right (hpre ▸ h2))
      | none =>
        rw [removeF_succ_none hm]
        by_cases hc : c = ' '
        · subst hc
          have hm' : matchToolToken cs = none := by
            rw [← matchToolToken_cons_space (c := ' ') (by decide)]
            exact hm
          cases cs with
          | nil => simp [removeF_nil, hasDoubleSpace]
          | cons d ds =>
            have hd : ¬ d = ' ' := fun hd => hasDS_cons_pair h2 ⟨rfl, hd⟩
            obtain ⟨g', rfl⟩ : ∃ g', g = g' + 1 := ⟨g - 1, by simp at h1; omega⟩
            have hds : hasDoubleSpace (removeF (g' + 1) (d :: ds)) = false :=
              ih (d :: ds) (by simp at h1 ⊢; omega) (hasDS_tail h2)
            rw [removeF_succ_none hm'] at hds ⊢
            exact hasDS_cons_head (by simp [hd]) hds
        · exact hasDS_cons_ne_space hc (ih cs (by omega) (hasDS_tail h2))

theorem head?_dropWhile_not (p : Char → Bool) (l : List Char) :
    ∀ c, (l.dropWhile p).head? = some c → p c = false := by
  induction l with
  | nil => simp
  | cons d l ih =>
    intro c hc
    by_cases hd : p d
    · rw [List.dropWhile_cons_of_pos hd] at hc
      exact ih c hc
    · rw [List.dropWhile_cons_of_neg hd] at hc
      simp only [List.head?_cons, Option.some.injEq] at hc
      subst hc
      simpa using hd

theorem rstrip_append (l : List Char) :
    rstrip l ++ (l.reverse.takeWhile isPySpace).reverse = l := by
  rw [rstrip, ← List.reverse_append, List.takeWhile_append_dropWhile, List.reverse_reverse]

theorem rstrip_getLast_not_space {l : List Char} {c : Char}
    (h : (rstrip l).getLast? = some c) : isPySpace c = false := by
  rw [rstrip, List.getLast?_reverse] at h
  exact head?_dropWhile_not _ _ _ h

theorem hasDS_of_no_space {l : List Char} (h : ∀ c ∈ l, ¬ c = ' ') :
    hasDoubleSpace l = false := by
  induction l with
  | nil => simp [hasDoubleSpace]
  | cons c l ih =>
    exact hasDS_cons_ne_space (h c (by simp)) (ih fun d hd => h d (by simp [hd]))

/-- Rewriting a fan-speed line's code portion never introduces double
spaces: the `\s*` prefix of the removal pattern takes the whitespace run
preceding the tool token out together with the token itself, and the new
` T<tool>` is appended after trimming trailing whitespace. -/
theorem noDS_newCode {code tool : List Char} (h : hasDoubleSpace code = false)
    (ht : ∀ c ∈ tool, c.isDigit = true) :
    hasDoubleSpace (rstrip (removeToolTokens code) ++ ' ' :: 'T' :: tool) = false := by
  have h1 : hasDoubleSpace (removeToolTokens code) = false := by
    rw [removeToolTokens]
    exact hasDS_removeF _ _ le_rfl h
  have h2 : hasDoubleSpace (rstrip (removeToolTokens code)) = false :=
    hasDS_append_left (by rw [rstrip_append]; exact h1)
  have h3 : hasDoubleSpace (' ' :: 'T' :: tool) = false := by
    refine hasDS_cons_head (by simp) ?_
    refine hasDS_cons_ne_space (by decide) ?_
    refine hasDS_of_no_space fun c hc h' => ?_
    have := ht c hc
    subst h'
    simp at this
  refine hasDS_append h2 h3 fun hl => ?_
  have := rstrip_getLast_not_space hl
  simp [isPySpace] at this

/-! ## Terminator splitting -/

theorem splitEol_crlf (s : List Char) : splitEol (s ++ ['\r', '\n']) = (s, ['\r', '\n']) := by
  rw [splitEol]
  have h2 : (s ++ ['\r', '\n']).reverse.take 2 = ['\n', '\r'] := by
    simp [List.reverse_append, List.take_succ_cons]
  rw [if_pos h2]
  have hd : (s ++ ['\r', '\n']).dropLast.dropLast = s := by
    rw [show s ++ ['\r', '\n'] = (s ++ ['\r']) ++ ['\n'] by simp,
      List.dropLast_concat, List.dropLast_concat]
  rw [hd]

theorem splitEol_lf {s : List Char} (hs : s.getLast? ≠ some '\r') :
    splitEol (s ++ ['\n']) = (s, ['\n']) := by
  rw [splitEol]
  have hrev : (s ++ ['\n']).reverse = '\n' :: s.reverse := by simp [List.reverse_append]
  have h2 : (s ++ ['\n']).reverse.take 2 ≠ ['\n', '\r'] := by
    rw [hrev]
    cases hsr : s.reverse with
    | nil => simp [List.take_succ_cons]
    | cons c r =>
      have hc : c ≠ '\r' := by
        intro hc
        apply hs
        rw [← List.head?_reverse, hsr, hc, List.head?_cons]
      simp [List.take_succ_cons, hc]
  rw [if_neg h2]
  have h1 : (s ++ ['\n']).reverse.take 1 = ['\n'] := by
    rw [hrev]
    simp [List.take_succ_cons]
  rw [if_pos h1, List.dropLast_concat]

theorem splitEol_no_eol {l : List Char} (h : l.getLast? ≠ some '\n') :
    splitEol l = (l, ['\n']) := by
  rw [splitEol]
  have hh : l.reverse.head? ≠ some '\n' := by rwa [List.head?_reverse]
  have h2 : l.reverse.take 2 ≠ ['\n', '\r'] := by
    cases hr : l.reverse with
    | nil => simp [List.take_succ_cons]
    | cons c r =>
      have hc : c ≠ '\n' := by
        intro hc
        apply hh
        rw [hr, hc, List.head?_cons]
      simp [List.take_succ_cons, hc]
  have h1 : l.reverse.take 1 ≠ ['\n'] := by
    cases hr : l.reverse with
    | nil => simp [List.take_succ_cons]
    | cons c r =>
      have hc : c ≠ '\n' := by
        intro hc
        apply hh
        rw [hr, hc, List.head?_cons]
      simp [List.take_succ_cons, hc]
  rw [if_neg h2, if_neg h1]

/-- Joining the two halves of `splitEol` back together: a line ending in
`\n` is reproduced byte-identically, any other line gains a final `\n`. -/
theorem splitEol_join (l : List Char) :
    (splitEol l).1 ++ (splitEol l).2 = if l.getLast? = some '\n' then l else l ++ ['\n'] := by
  by_cases hn : l.getLast? = some '\n'
  · rw [if_pos hn]
    obtain ⟨s, rfl⟩ := List.getLast?_eq_some_iff.mp hn
    by_cases hr : s.getLast? = some '\r'
    · obtain ⟨u, rfl⟩ := List.getLast?_eq_some_iff.mp hr
      rw [show (u ++ ['\r']) ++ ['\n'] = u ++ ['\r', '\n'] by simp, splitEol_crlf]
    · rw [splitEol_lf hr]
  · rw [if_neg hn, splitEol_no_eol hn]

/-! ## Unfolding `processLine` by branch -/

theorem processLine_tool_some {st : RewriterState} {l tnum sp : List Char}
    (hm : matchTool (splitEol l).1 = some tnum) (hl : st.lastFanSpeed = some sp) :
    processLine st l = (⟨some tnum, some sp⟩,
      [(splitEol l).1 ++ (splitEol l).2,
       chars "M106 S" ++ sp ++ chars " T" ++ tnum ++ (splitEol l).2]) := by
  simp [processLine, hm, hl]

theorem processLine_tool_none {st : RewriterState} {l tnum : List Char}
    (hm : matchTool (splitEol l).1 = some tnum) (hl : st.lastFanSpeed = none) :
    processLine st l = (⟨some tnum, none⟩, [(splitEol l).1 ++ (splitEol l).2]) := by
  simp [processLine, hm, hl]

theorem processLine_passthrough {st : RewriterState} {l : List Char}
    (hm : matchTool (splitEol l).1 = none)
    (hd : isFanLine (splitEol l).1 = false ∨ st.currentTool = none ∨
      findSParam none ((splitEol l).1.takeWhile (fun c => c != ';')) = none) :
    processLine st l = (st, [(splitEol l).1 ++ (splitEol l).2]) := by
  rcases hd with hf | ht | hs
  · cases hct : st.currentTool with
    | none => simp [processLine, hm, hct]
    | some tool => simp [processLine, hm, hct, hf]
  · simp [processLine, hm, ht]
  · cases hct : st.currentTool with
    | none => simp [processLine, hm, hct]
    | some tool =>
      by_cases hf : isFanLine (splitEol l).1
      · simp [processLine, hm, hct, hf, hs]
      · simp [processLine, hm, hct, hf]

theorem processLine_rewrite {st : RewriterState} {l tool sp : List Char}
    (hm : matchTool (splitEol l).1 = none) (ht : st.currentTool = some tool)
    (hf : isFanLine (splitEol l).1 = true)
    (hs : findSParam none ((splitEol l).1.takeWhile (fun c => c != ';')) = some sp) :
    processLine st l = (⟨some tool, some sp⟩,
      [(rstrip (removeToolTokens ((splitEol l).1.takeWhile (fun c => c != ';')))
          ++ ' ' :: 'T' :: tool)
        ++ (if !((splitEol l).1.dropWhile (fun c => c != ';')).isEmpty &&
              ((rstrip (removeToolTokens ((splitEol l).1.takeWhile (fun c => c != ';')))
                ++ ' ' :: 'T' :: tool).getLast? != some ' ')
            then [' '] else [])
        ++ (splitEol l).1.dropWhile (fun c => c != ';') ++ (splitEol l).2]) := by
  simp [processLine, hm, ht, hf, hs]

/-! ## Branch classification facts -/

/-- A line whose stripped content starts with `M106` can never match the
`M108` tool pattern: the two checks read the same whitespace-stripped
prefix and disagree on the fourth character. -/
theorem fan_not_tool {s : List Char} (hf : isFanLine s = true) : matchTool s = none := by
  cases hd : s.dropWhile isPySpace with
  | nil => simp [matchTool, hd]
  | cons m rest1 =>
    cases rest1 with
    | nil => simp [matchTool, hd]
    | cons a rest2 =>
      cases rest2 with
      | nil => simp [matchTool, hd]
      | cons b rest3 =>
        cases rest3 with
        | nil => simp [matchTool, hd]
        | cons c rest =>
          rw [isFanLine, hd] at hf
          simp only [List.map_cons, List.isPrefixOf, Bool.and_eq_true, beq_iff_eq] at hf
          have hc8 : ¬(c == '8') = true := by
            intro h
            have hc : c = '8' := by simpa using h
            subst hc
            exact absurd hf.2.2.2.1 (by decide)
          simp [matchTool, hd, hc8]

theorem processLine_length (st : RewriterState) (l : List Char) :
    (processLine st l).2.length = 1 ∨
    ((processLine st l).2.length = 2 ∧ matchTool (splitEol l).1 ≠ none ∧
      st.lastFanSpeed ≠ none) := by
  cases hm : matchTool (splitEol l).1 with
  | some tnum =>
    cases hl : st.lastFanSpeed with
    | some sp =>
      right
      rw [processLine_tool_some hm hl]
      exact ⟨rfl, by simp [hm], by simp [hl]⟩
    | none =>
      left
      rw [processLine_tool_none hm hl]
      rfl
  | none =>
    left
    cases hct : st.currentTool with
    | none =>
      rw [processLine_passthrough hm (Or.inr (Or.inl hct))]
      rfl
    | some tool =>
      by_cases hf : isFanLine (splitEol l).1
      · cases hs : findSParam none ((splitEol l).1.takeWhile (fun c => c != ';')) with
        | some sp =>
          rw [processLine_rewrite hm hct hf hs]
          rfl
        | none =>
          rw [processLine_passthrough hm (Or.inr (Or.inr hs))]
          rfl
      · rw [processLine_passthrough hm (Or.inl (by simpa using hf))]
        rfl

theorem runFrom_length (st : RewriterState) (L : List (List Char)) :
    L.length ≤ (runFrom st L).2.length := by
  induction L generalizing st with
  | nil => simp [runFrom]
  | cons l ls ih =>
    simp only [runFrom, List.length_append, List.length_cons]
    have h1 : 1 ≤ (processLine st l).2.length := by
      rcases processLine_length st l with h | h
      · omega
      · omega
    have h2 := ih ((processLine st l).1)
    omega

/-- Exactly one of the three branches of the loop body applies to a line,
and the state after the line is as the branch dictates. -/
theorem processLine_state_trichotomy (st : RewriterState) (l : List Char) :
    (∃ tnum, matchTool (splitEol l).1 = some tnum ∧
      (processLine st l).1 = ⟨some tnum, st.lastFanSpeed⟩) ∨
    (matchTool (splitEol l).1 = none ∧ ∃ tool sp, st.currentTool = some tool ∧
      isFanLine (splitEol l).1 = true ∧
      findSParam none ((splitEol l).1.takeWhile (fun c => c != ';')) = some sp ∧
      (processLine st l).1 = ⟨some tool, some sp⟩) ∨
    (matchTool (splitEol l).1 = none ∧ (processLine st l).1 = st ∧
      (isFanLine (splitEol l).1 = false ∨ st.currentTool = none ∨
        findSParam none ((splitEol l).1.takeWhile (fun c => c != ';')) = none)) := by
  cases hm : matchTool (splitEol l).1 with
  | some tnum =>
    left
    refine ⟨tnum, rfl, ?_⟩
    cases hl : st.lastFanSpeed with
    | some sp => rw [processLine_tool_some hm hl]
    | none => rw [processLine_tool_none hm hl]
  | none =>
    cases hct : st.currentTool with
    | none =>
      right; right
      exact ⟨rfl, by rw [processLine_passthrough hm (Or.inr (Or.inl hct))],
        Or.inr (Or.inl rfl)⟩
    | some tool =>
      by_cases hf : isFanLine (splitEol l).1
      · cases hs : findSParam none ((splitEol l).1.takeWhile (fun c => c != ';')) with
        | some sp =>
          right; left
          exact ⟨rfl, tool, sp, rfl, hf, rfl, by rw [processLine_rewrite hm hct hf hs]⟩
        | none =>
          right; right
          exact ⟨rfl, by rw [processLine_passthrough hm (Or.inr (Or.inr hs))],
            Or.inr (Or.inr rfl)⟩
      · right; right
        have hf' : isFanLine (splitEol l).1 = false := by simpa using hf
        exact ⟨rfl, by rw [processLine_passthrough hm (Or.inl hf')], Or.inl hf'⟩

theorem processLine_tool_isSome {st : RewriterState} {l : List Char}
    (h : st.currentTool.isSome) : (processLine st l).1.currentTool.isSome := by
  rcases processLine_state_trichotomy st l with ⟨t, _, hst⟩ | ⟨_, t, sp, _, _, _, hst⟩ |
    ⟨_, hst, _⟩
  · simp [hst]
  · simp [hst]
  · rw [hst]; exact h

theorem processLine_fan_isSome {st : RewriterState} {l : List Char}
    (h : st.lastFanSpeed.isSome) : (processLine st l).1.lastFanSpeed.isSome := by
  rcases processLine_state_trichotomy st l with ⟨t, _, hst⟩ | ⟨_, t, sp, _, _, _, hst⟩ |
    ⟨_, hst, _⟩
  · rw [hst]; exact h
  · simp [hst]
  · rw [hst]; exact h

theorem runFrom_tool_isSome (L : List (List Char)) (st : RewriterState)
    (h : st.currentTool.isSome) : (runFrom st L).1.currentTool.isSome := by
  induction L generalizing st with
  | nil => simpa [runFrom] using h
  | cons l ls ih => exact ih _ (processLine_tool_isSome h)

theorem runFrom_fan_isSome (L : List (List Char)) (st : RewriterState)
    (h : st.lastFanSpeed.isSome) : (runFrom st L).1.lastFanSpeed.isSome := by
  induction L generalizing st with
  | nil => simpa [runFrom] using h
  | cons l ls ih => exact ih _ (processLine_fan_isSome h)

/-! ## Normalised lines are stable under the splitter -/

theorem splitEol_eol_cases (l : List Char) :
    (splitEol l).2 = ['\r', '\n'] ∨ (splitEol l).2 = ['\n'] := by
  rw [splitEol]
  split
  · left; rfl
  · split
    · right; rfl
    · right; rfl

theorem norm_getLast (l : List Char) :
    ((splitEol l).1 ++ (splitEol l).2).getLast? = some '\n' := by
  rcases splitEol_eol_cases l with h | h
  · rw [h, show (splitEol l).1 ++ ['\r', '\n'] = ((splitEol l).1 ++ ['\r']) ++ ['\n'] by simp]
    exact List.getLast?_concat _
  · rw [h]
    exact List.getLast?_concat _

theorem splitEol_again {l : List Char} (hcr : l.getLast? ≠ some '\r') :
    splitEol ((splitEol l).1 ++ (splitEol l).2) = splitEol l := by
  by_cases hn : l.getLast? = some '\n'
  · obtain ⟨s, rfl⟩ := List.getLast?_eq_some_iff.mp hn
    by_cases hr : s.getLast? = some '\r'
    · obtain ⟨u, rfl⟩ := List.getLast?_eq_some_iff.mp hr
      rw [show (u ++ ['\r']) ++ ['\n'] = u ++ ['\r', '\n'] by simp, splitEol_crlf]
      exact splitEol_crlf u
    · rw [splitEol_lf hr]
      exact splitEol_lf hr
  · rw [splitEol_no_eol hn]
    exact splitEol_lf hcr

/-- With no tool there to select, every line of the run is a pass-through:
the tool branch needs a tool-select match and the fan branch needs a set
`current_tool`, so the state stays `⟨none, none⟩` throughout. -/
theorem runFrom_no_tool : ∀ (L : List (List Char)) (st : RewriterState),
    st.currentTool = none → (∀ l ∈ L, matchTool (splitEol l).1 = none) →
    runFrom st L = (st, L.map fun l => (splitEol l).1 ++ (splitEol l).2) := by
  intro L
  induction L with
  | nil =>
    intro st _ _
    simp [runFrom]
  | cons l ls ih =>
    intro st ht hL
    have h1 : processLine st l = (st, [(splitEol l).1 ++ (splitEol l).2]) :=
      processLine_passthrough (hL l (by simp)) (Or.inr (Or.inl ht))
    simp only [runFrom, h1]
    rw [ih st ht (fun x hx => hL x (by simp [hx]))]
    simp

/-! ## Small auxiliary facts for the rewrite branch -/

theorem mem_dropWhile_semi {s : List Char} (h : ';' ∈ s) :
    ¬(s.dropWhile (fun c => c != ';')).isEmpty = true := by
  induction s with
  | nil => simp at h
  | cons c cs ih =>
    by_cases hc : c = ';'
    · subst hc
      rw [List.dropWhile_cons_of_neg (by simp)]
      simp
    · rw [List.dropWhile_cons_of_pos (by simp [hc])]
      refine ih ?_
      rcases List.mem_cons.mp h with h' | h'
      · exact absurd h'.symm hc
      · exact h'

theorem getLast?_newCode (x tool : List Char) (ht : ∀ c ∈ tool, c.isDigit = true) :
    (x ++ ' ' :: 'T' :: tool).getLast? ≠ some ' ' := by
  rcases List.eq_nil_or_concat tool with rfl | ⟨u, d, rfl⟩
  · rw [show x ++ [' ', 'T'] = (x ++ [' ']) ++ ['T'] by simp, List.getLast?_concat]
    simp
  · have hd : d.isDigit = true := ht d (by simp [List.concat_eq_append])
    rw [show x ++ ' ' :: 'T' :: u.concat d = (x ++ ' ' :: 'T' :: u) ++ [d] by
      simp [List.concat_eq_append]]
    rw [List.getLast?_concat]
    intro h
    simp only [Option.some.injEq] at h
    subst h
    simp at hd

/-! ## The claims -/

/-- C1 (amended): `process_lines` is not idempotent in general — re-running
it duplicates the synthesized insertion after a tool-select line once a fan
speed is known (see `C1_counterexample`).  It is idempotent on inputs that
contain no tool-select line (and no line ending in a bare carriage
return): there the run is a pure per-line terminator normalisation, which
is itself idempotent. -/
theorem C1_idempotent_without_tool_lines (L : List (List Char))
    (hm : ∀ l ∈ L, matchTool (splitEol l).1 = none)
    (hcr : ∀ l ∈ L, l.getLast? ≠ some '\r') :
    process_lines (process_lines L) = process_lines L := by
  have h1 : process_lines L = L.map fun l => (splitEol l).1 ++ (splitEol l).2 := by
    rw [process_lines, runFrom_no_tool L ⟨none, none⟩ rfl hm]
  have key : ∀ l ∈ L, splitEol ((splitEol l).1 ++ (splitEol l).2) = splitEol l :=
    fun l hl => splitEol_again (hcr l hl)
  have hm2 : ∀ x ∈ L.map (fun l => (splitEol l).1 ++ (splitEol l).2),
      matchTool (splitEol x).1 = none := by
    intro x hx
    obtain ⟨l, hl, rfl⟩ := List.mem_map.mp hx
    rw [key l hl]
    exact hm l hl
  rw [h1, process_lines, runFrom_no_tool _ ⟨none, none⟩ rfl hm2]
  rw [List.map_map]
  refine List.map_congr_left fun l hl => ?_
  show (splitEol ((splitEol l).1 ++ (splitEol l).2)).1
      ++ (splitEol ((splitEol l).1 ++ (splitEol l).2)).2
    = (splitEol l).1 ++ (splitEol l).2
  rw [key l hl]

/-- C1 counterexample: on `M108 T1 / M106 S2 / M108 T3` the first run ends
with the synthesized `M106 S2 T3`; the second run synthesizes it again
right after `M108 T3`, so the output grows from 4 to 5 lines. -/
theorem C1_counterexample :
    process_lines [chars "M108 T1\n", chars "M106 S2\n", chars "M108 T3\n"] =
      [chars "M108 T1\n", chars "M106 S2 T1\n", chars "M108 T3\n", chars "M106 S2 T3\n"] ∧
    process_lines (process_lines [chars "M108 T1\n", chars "M106 S2\n", chars "M108 T3\n"]) =
      [chars "M108 T1\n", chars "M106 S2 T1\n", chars "M108 T3\n", chars "M106 S2 T3\n",
       chars "M106 S2 T3\n"] ∧
    process_lines (process_lines [chars "M108 T1\n", chars "M106 S2\n", chars "M108 T3\n"]) ≠
      process_lines [chars "M108 T1\n", chars "M106 S2\n", chars "M108 T3\n"] :=
  ⟨by decide, by decide, by decide⟩

/-- C1 witness: a tool-free input on which the transform is idempotent. -/
theorem C1_idempotent_without_tool_lines_witness :
    process_lines (process_lines [chars "G1 X0\n", chars "M106 S5\n", chars "hello"]) =
      process_lines [chars "G1 X0\n", chars "M106 S5\n", chars "hello"] :=
  C1_idempotent_without_tool_lines [chars "G1 X0\n", chars "M106 S5\n", chars "hello"]
    (by decide) (by decide)

/-- C2: on the four-line input `M106 S50 / M108 T1 / M106 S75 / M108 T2`
the transform returns exactly the five claimed lines in order. -/
theorem C2_scenario_two :
    process_lines [chars "M106 S50\n", chars "M108 T1\n", chars "M106 S75\n",
        chars "M108 T2\n"]
      = [chars "M106 S50\n", chars "M108 T1\n", chars "M106 S75 T1\n",
         chars "M108 T2\n", chars "M106 S75 T2\n"] := by
  decide

/-- C3 (amended): a default pass-through line is emitted with its content
byte-identical and its state untouched; a line already terminated by `\n`
(also covering `\r\n`) is reproduced byte-for-byte, but an unterminated
final line is emitted with an `\n` appended (the claim's "no terminator in,
no terminator out" is refuted by `C3_counterexample`). -/
theorem C3_passthrough_byte_identical (st : RewriterState) (l : List Char)
    (hm : matchTool (splitEol l).1 = none)
    (hd : isFanLine (splitEol l).1 = false ∨ st.currentTool = none ∨
      findSParam none ((splitEol l).1.takeWhile (fun c => c != ';')) = none) :
    processLine st l = (st, [(splitEol l).1 ++ (splitEol l).2]) ∧
    (splitEol l).1 ++ (splitEol l).2 =
      (if l.getLast? = some '\n' then l else l ++ ['\n']) :=
  ⟨processLine_passthrough hm hd, splitEol_join l⟩

/-- C3 counterexample: the unterminated pass-through line `X` is emitted as
`X\n`, not byte-identical to its input. -/
theorem C3_counterexample :
    process_lines [chars "X"] = [chars "X\n"] ∧
    process_lines [chars "X"] ≠ [chars "X"] :=
  ⟨by decide, by decide⟩

/-- C3 witness: an ordinary motion line with both state fields set passes
through byte-identically. -/
theorem C3_passthrough_byte_identical_witness :
    processLine ⟨some (chars "1"), some (chars "5")⟩ (chars "G1 X0\n") =
      (⟨some (chars "1"), some (chars "5")⟩, [chars "G1 X0\n"]) :=
  ((C3_passthrough_byte_identical ⟨some (chars "1"), some (chars "5")⟩ (chars "G1 X0\n")
    (by decide) (by decide)).1).trans (by decide)

/-- C4 (code bug): the removal pattern `\s*T\d+\b` has no word boundary
before the `T`, so the `T5` inside the longer token `PT5` is removed (the
line becomes `M106 S10 P T0`), although line 62's comment promises to keep
other parameters untouched and the spec asks for whole-token removal. -/
theorem C4_embedded_token_removed :
    process_lines [chars "M108 T0\n", chars "M106 S10 PT5\n"]
      = [chars "M108 T0\n", chars "M106 S10 P T0\n"] ∧
    chars "M106 S10 P T0\n" ≠ chars "M106 S10 PT5 T0\n" :=
  ⟨by decide, by decide⟩

/-- C5 (amended): a fan-speed line arriving while `current_tool` is unset
falls through to the default branch — the state (in particular
`last_fan_speed`) is unchanged even when the line carries a speed value,
and the content is emitted unmodified, with the terminator preserved for a
terminated line and an `\n` appended to an unterminated one (the latter
refutes the claim's "emitted unchanged", see `C5_counterexample`). -/
theorem C5_fan_before_tool (st : RewriterState) (l : List Char)
    (ht : st.currentTool = none) (hf : isFanLine (splitEol l).1 = true) :
    processLine st l = (st, [(splitEol l).1 ++ (splitEol l).2]) ∧
    (splitEol l).1 ++ (splitEol l).2 =
      (if l.getLast? = some '\n' then l else l ++ ['\n']) :=
  ⟨processLine_passthrough (fan_not_tool hf) (Or.inr (Or.inl ht)), splitEol_join l⟩

/-- C5 counterexample: with no tool set, the unterminated fan line
`M106 S5` is emitted as `M106 S5\n`, which is not the input line. -/
theorem C5_counterexample :
    process_lines [chars "M106 S5"] = [chars "M106 S5\n"] ∧
    process_lines [chars "M106 S5"] ≠ [chars "M106 S5"] :=
  ⟨by decide, by decide⟩

/-- C5 witness: a terminated fan line before any tool line passes through
byte-identically and leaves the state `⟨none, none⟩`. -/
theorem C5_fan_before_tool_witness :
    processLine ⟨none, none⟩ (chars "M106 S50\n") = (⟨none, none⟩, [chars "M106 S50\n"]) :=
  ((C5_fan_before_tool ⟨none, none⟩ (chars "M106 S50\n") rfl (by decide)).1).trans
    (by decide)

/-- C6: the transform is total by construction (it is a Lean function with
no error channel), every line emits one or two output lines — two exactly
in the tool-select branch with a remembered fan speed — and therefore the
output is never shorter than the input. -/
theorem C6_no_line_dropped :
    (∀ L : List (List Char), L.length ≤ (process_lines L).length) ∧
    (∀ (st : RewriterState) (l : List Char),
      (processLine st l).2.length = 1 ∨
      ((processLine st l).2.length = 2 ∧ matchTool (splitEol l).1 ≠ none ∧
        st.lastFanSpeed ≠ none)) :=
  ⟨fun L => by rw [process_lines]; exact runFrom_length _ _, processLine_length⟩

/-- C7: in the rewrite branch, everything from the first `;` of the content
onward is reproduced byte-identically at the end of the output line,
separated from the rewritten code portion by exactly one space (the code
portion ends in the tool digits, never in a space). -/
theorem C7_comment_preserved (st : RewriterState) (l tool sp : List Char)
    (hm : matchTool (splitEol l).1 = none) (ht : st.currentTool = some tool)
    (hf : isFanLine (splitEol l).1 = true)
    (hs : findSParam none ((splitEol l).1.takeWhile (fun c => c != ';')) = some sp)
    (hsemi : ';' ∈ (splitEol l).1) (htool : ∀ c ∈ tool, c.isDigit = true) :
    (processLine st l).2 =
      [(rstrip (removeToolTokens ((splitEol l).1.takeWhile (fun c => c != ';')))
          ++ ' ' :: 'T' :: tool)
        ++ ' ' :: ((splitEol l).1.dropWhile (fun c => c != ';')) ++ (splitEol l).2] := by
  rw [processLine_rewrite hm ht hf hs]
  have hne := mem_dropWhile_semi hsemi
  have hlast := getLast?_newCode
    (rstrip (removeToolTokens ((splitEol l).1.takeWhile (fun c => c != ';')))) tool htool
  have hcond : (!((splitEol l).1.dropWhile (fun c => c != ';')).isEmpty &&
      ((rstrip (removeToolTokens ((splitEol l).1.takeWhile (fun c => c != ';')))
        ++ ' ' :: 'T' :: tool).getLast? != some ' ')) = true := by
    rw [Bool.and_eq_true]
    exact ⟨by simpa using hne, by simpa [bne_iff_ne] using hlast⟩
  rw [if_pos hcond]
  simp

/-- C7 witness: the spec's scenario 3 line `M106 S30 T9 ; cool` after
`M108 T0` becomes `M106 S30 T0 ; cool`, the comment byte-identical. -/
theorem C7_comment_preserved_witness :
    (processLine ⟨some (chars "0"), none⟩ (chars "M106 S30 T9 ; cool\n")).2 =
      [chars "M106 S30 T0 ; cool\n"] :=
  (C7_comment_preserved ⟨some (chars "0"), none⟩ (chars "M106 S30 T9 ; cool\n")
    (chars "0") (chars "30") (by decide) rfl (by decide) (by decide) (by decide)
    (by decide)).trans (by decide)

/-- C8: a tool-select line processed with a remembered fan speed emits the
original line and then exactly `M106 S<speed> T<tool>`, both closed with
the terminator of the triggering line (so a `\r\n` tool line yields a
`\r\n` synthesized line). -/
theorem C8_synthesized_form (st : RewriterState) (l tnum sp : List Char)
    (hm : matchTool (splitEol l).1 = some tnum) (hl : st.lastFanSpeed = some sp) :
    (processLine st l).2 =
      [(splitEol l).1 ++ (splitEol l).2,
       chars "M106 S" ++ sp ++ chars " T" ++ tnum ++ (splitEol l).2] := by
  rw [processLine_tool_some hm hl]

/-- C8 witness: a CRLF-terminated tool line with speed `38.25` remembered
synthesizes a CRLF-terminated `M106 S38.25 T7`. -/
theorem C8_synthesized_form_witness :
    (processLine ⟨none, some (chars "38.25")⟩ (chars "M108 T7\r\n")).2 =
      [chars "M108 T7\r\n", chars "M106 S38.25 T7\r\n"] :=
  (C8_synthesized_form ⟨none, some (chars "38.25")⟩ (chars "M108 T7\r\n")
    (chars "7") (chars "38.25") (by decide) rfl).trans (by decide)

/-- C9: `current_tool` changes only when the tool pattern matches;
`last_fan_speed` changes only on a fan line with a speed value while a tool
is set; both fields, once set, stay set for the rest of the line and over
any remaining run; and a default pass-through line leaves the whole state
unchanged. -/
theorem C9_state_invariants (st : RewriterState) (l : List Char) (L : List (List Char)) :
    ((processLine st l).1.currentTool ≠ st.currentTool →
      matchTool (splitEol l).1 ≠ none) ∧
    ((processLine st l).1.lastFanSpeed ≠ st.lastFanSpeed →
      matchTool (splitEol l).1 = none ∧ isFanLine (splitEol l).1 = true ∧
      st.currentTool ≠ none ∧
      findSParam none ((splitEol l).1.takeWhile (fun c => c != ';')) ≠ none) ∧
    (st.currentTool.isSome → (processLine st l).1.currentTool.isSome ∧
      (runFrom st L).1.currentTool.isSome) ∧
    (st.lastFanSpeed.isSome → (processLine st l).1.lastFanSpeed.isSome ∧
      (runFrom st L).1.lastFanSpeed.isSome) ∧
    (matchTool (splitEol l).1 = none ∧
      (isFanLine (splitEol l).1 = false ∨ st.currentTool = none ∨
        findSParam none ((splitEol l).1.takeWhile (fun c => c != ';')) = none) →
      (processLine st l).1 = st) := by
  refine ⟨?_, ?_, fun h => ⟨processLine_tool_isSome h, runFrom_tool_isSome L st h⟩,
    fun h => ⟨processLine_fan_isSome h, runFrom_fan_isSome L st h⟩, ?_⟩
  · intro hne
    rcases processLine_state_trichotomy st l with ⟨t, hm, _⟩ | ⟨_, t, sp, hct, _, _, hst⟩ |
      ⟨_, hst, _⟩
    · simp [hm]
    · exfalso
      apply hne
      rw [hst, hct]
    · exfalso
      exact hne (by rw [hst])
  · intro hne
    rcases processLine_state_trichotomy st l with ⟨t, hm, hst⟩ | ⟨hm, t, sp, hct, hf, hs, _⟩ |
      ⟨_, hst, _⟩
    · exfalso
      apply hne
      rw [hst]
    · exact ⟨hm, hf, by simp [hct], by simp [hs]⟩
    · exfalso
      exact hne (by rw [hst])
  · rintro ⟨hm, hd⟩
    rw [processLine_passthrough hm hd]

/-- C10 counterexample (negation of the claim): no code portion free of
double spaces ever acquires one through tool-token removal — the `\s*` in
the pattern removes the whitespace run preceding the token with it. -/
theorem C10_counterexample :
    (∃ code : List Char, hasDoubleSpace code = false ∧
      hasDoubleSpace (removeToolTokens code) = true) = False := by
  apply eq_false
  rintro ⟨code, h1, h2⟩
  rw [removeToolTokens, hasDS_removeF _ _ le_rfl h1] at h2
  exact Bool.false_ne_true h2

/-- C10 (amended): tool-token removal consumes the whitespace run
immediately preceding the removed token, so a single-spaced code portion
stays free of double spaces, both after the removal itself and after the
trailing trim and the ` T<tool>` append of line 64. -/
theorem C10_no_double_space (code tool : List Char)
    (h : hasDoubleSpace code = false) (ht : ∀ c ∈ tool, c.isDigit = true) :
    hasDoubleSpace (removeToolTokens code) = false ∧
    hasDoubleSpace (rstrip (removeToolTokens code) ++ ' ' :: 'T' :: tool) = false := by
  constructor
  · rw [removeToolTokens]
    exact hasDS_removeF _ _ le_rfl h
  · exact noDS_newCode h ht

/-- C10 witness: removing ` T5` from `M106 S10 T5 X1` and appending ` T2`
yields the single-spaced `M106 S10 X1 T2`. -/
theorem C10_no_double_space_witness :
    hasDoubleSpace (removeToolTokens (chars "M106 S10 T5 X1")) = false ∧
    hasDoubleSpace (rstrip (removeToolTokens (chars "M106 S10 T5 X1"))
      ++ ' ' :: 'T' :: chars "2") = false :=
  C10_no_double_space (chars "M106 S10 T5 X1") (chars "2") (by decide) (by decide)
